import Mathlib

/-
Verification of the preprocessing-and-serving data pipeline of the
cats-vs-dogs MLOps repository.

Shallow embedding conventions:
* Python floats (the split ratios, accuracies, probabilities) are modelled as
  exact rationals, represented by the executable unnormalised fraction type
  `Frac` (numerator/denominator over ℤ) so that every definition reduces in
  the kernel.  IEEE rounding is abstracted away.
* `sklearn.model_selection.train_test_split` with `stratify=labels` and a
  fixed `random_state` is modelled after sklearn's implementation:
  `_validate_shuffle_split` computes `n_test = ceil(test_size*n)`,
  `n_train = n - n_test`; `StratifiedShuffleSplit._iter_indices` validates the
  class counts and allocates per-class sizes with `_approximate_mode`
  (floor the exact proportions, then hand out the remaining draws in order of
  decreasing remainder).  Inside `_approximate_mode` every quantity is a
  natural number: `floor(c*d/total)` is exact Nat division and the fractional
  remainders, which all share the denominator `total`, are compared via their
  numerators `c*d % total`.  The Mersenne-Twister permutations drawn from the
  seeded RNG are modelled as deterministic rotations keyed by the seed
  (`List.rotate`); every claim proved below is independent of which
  permutation the RNG actually produces.  RNG tie-breaking among equal
  remainders is modelled as lowest-index-first.
* The filesystem is explicit: `load_image_paths` takes a `RawDir` description
  of the directory tree, and `preprocess_images` returns the list of
  filesystem effects it performs alongside its result.
* The torch model of the inference service is abstracted to a function from
  decoded images to the two softmax probabilities; image decoding either
  succeeds (`FileBytes.image`) or fails (`FileBytes.corrupt`), matching
  `PIL.Image.open` raising on undecodable bytes.
-/

namespace CatsDogs

/-! ## Exact-rational model of Python floats -/

/-- Unnormalised fraction `num/den`; the executable stand-in for a Python
float value.  All constructors used below keep `den` positive. -/
structure Frac where
  num : Int
  den : Int
deriving DecidableEq, Repr

def Frac.zero : Frac := ⟨0, 1⟩

def Frac.one : Frac := ⟨1, 1⟩

def Frac.add (a b : Frac) : Frac := ⟨a.num * b.den + b.num * a.den, a.den * b.den⟩

def Frac.sub (a b : Frac) : Frac := ⟨a.num * b.den - b.num * a.den, a.den * b.den⟩

/-- Python `a / b` on floats (used only after the zero-denominator guard). -/
def Frac.div (a b : Frac) : Frac := ⟨a.num * b.den, a.den * b.num⟩

/-- Python `abs` (valid for positive `den`). -/
def Frac.abs (a : Frac) : Frac := ⟨(a.num.natAbs : Int), a.den⟩

/-- Python `a < b` on floats (valid for positive `den`s). -/
def Frac.lt (a b : Frac) : Bool := a.num * b.den < b.num * a.den

/-- Python `a <= b` on floats (valid for positive `den`s). -/
def Frac.le (a b : Frac) : Bool := a.num * b.den ≤ b.num * a.den

/-- Multiplication by a sample count. -/
def Frac.mulNat (a : Frac) (n : Nat) : Frac := ⟨a.num * (n : Int), a.den⟩

/-- Python `ceil`, landing in ℕ (valid for positive `den`; clamped at 0). -/
def Frac.ceilNat (a : Frac) : Nat := (-((-a.num).fdiv a.den)).toNat

/-- Semantics of a fraction as a rational number. -/
def Frac.toRat (a : Frac) : ℚ := (a.num : ℚ) / (a.den : ℚ)

/-- Tolerance `1e-6` of the ratio-sum assertion in `preprocess_images`. -/
def tolerance : Frac := ⟨1, 1000000⟩

/-! ## List helpers used by the split model -/

/-- Duplicate-free list of the values occurring in `l` (models the set of
class labels computed by `np.unique`; the order of the classes only feeds the
RNG-permuted concatenation, so it is irrelevant to every claim below). -/
def dedup : List Nat → List Nat
  | [] => []
  | x :: rest => if x ∈ dedup rest then dedup rest else x :: dedup rest

/-- Insert `i` into a list sorted by strictly decreasing `key`, after all
entries of greater-or-equal key (so equal keys stay in ascending index
order). -/
def insertDesc (key : Nat → Nat) (i : Nat) : List Nat → List Nat
  | [] => [i]
  | j :: rest => if key i ≤ key j then j :: insertDesc key i rest else i :: j :: rest

/-- Sort indices by decreasing `key`, ties by ascending index: the order in
which `_approximate_mode` hands out the leftover draws. -/
def sortDesc (key : Nat → Nat) : List Nat → List Nat
  | [] => []
  | i :: rest => insertDesc key i (sortDesc key rest)

/-! ## The dataset splitter (src/data/preprocessing.py lines 107-133) -/

/-- One labelled sample: the image path and its class label (0 = cat,
1 = dog). -/
abbrev Sample := String × Nat

/-- Error taxonomy of `preprocess_images` and of the sklearn split it calls. -/
inductive SplitErr where
  /-- The `assert abs(train+val+test-1.0) < 1e-6` in `preprocess_images`. -/
  | assertSum
  /-- The `ValueError` raised when no images are found. -/
  | noImages
  /-- sklearn `_validate_shuffle_split`: float `test_size` outside `(0, 1)`. -/
  | badTestSize
  /-- sklearn `_validate_shuffle_split`: requested sizes exceed the samples. -/
  | sizesExceed
  /-- sklearn `_validate_shuffle_split`: the train set would be empty. -/
  | emptyTrain
  /-- sklearn stratified split: a class with fewer than 2 members. -/
  | classTooSmall
  /-- sklearn stratified split: `n_train` smaller than the class count. -/
  | trainTooFew
  /-- sklearn stratified split: `n_test` smaller than the class count. -/
  | testTooFew
  /-- Python `ZeroDivisionError` at `val_ratio / (val_ratio + test_ratio)`. -/
  | zeroDiv
deriving DecidableEq, Repr

/-- Size checks of sklearn `_validate_shuffle_split` once
`n_test = nTest` is computed: with `train_size=None`,
`n_train = n - n_test`, then the overflow and emptiness checks, in source
order. -/
def validateSizes (n nTest : Nat) : Except SplitErr (Nat × Nat) :=
  if n < (n - nTest) + nTest then .error .sizesExceed
  else if n - nTest = 0 then .error .emptyTrain
  else .ok (n - nTest, nTest)

/-- sklearn `_validate_shuffle_split` for a float `test_size` and
`train_size=None`: bounds check, then `n_test = ceil(test_size*n)` and the
size checks. -/
def validateShuffleSplit (n : Nat) (testSize : Frac) : Except SplitErr (Nat × Nat) :=
  if Frac.le testSize Frac.zero || Frac.le Frac.one testSize then .error .badTestSize
  else validateSizes n (Frac.ceilNat (Frac.mulNat testSize n))

/-- The floor stage of `_approximate_mode`: the exact per-class shares
`c * nDraws / total`, floored (exact Nat division). -/
def approxFloored (counts : List Nat) (nDraws : Nat) : List Nat :=
  counts.map (fun c => c * nDraws / counts.sum)

/-- The classes receiving one leftover draw each in `_approximate_mode`: the
`nDraws - sum(floored)` class indices of largest fractional remainder
(remainders share the denominator `total`, so they are compared via their
numerators `c * nDraws % total`). -/
def approxChosen (counts : List Nat) (nDraws : Nat) : List Nat :=
  (sortDesc (fun i => counts.getD i 0 * nDraws % counts.sum)
    (List.range counts.length)).take (nDraws - (approxFloored counts nDraws).sum)

/-- sklearn `_approximate_mode counts nDraws`: floor the exact per-class
shares, then give one extra draw each to the chosen classes
(`floored[inds] += 1`). -/
def approxMode (counts : List Nat) (nDraws : Nat) : List Nat :=
  (approxChosen counts nDraws).foldl (fun acc i => acc.set i (acc.getD i 0 + 1))
    (approxFloored counts nDraws)

/-- The members of class `c`, in sample order (sklearn's
`class_indices[i]`). -/
def classMembers (samples : List Sample) (c : Nat) : List Sample :=
  samples.filter (fun s => s.2 == c)

/-- The distinct class labels of a sample list (sklearn's `classes`). -/
def classesOf (samples : List Sample) : List Nat := dedup (samples.map (fun s => s.2))

/-- The per-class member counts (sklearn's `class_counts`). -/
def classCountsOf (samples : List Sample) : List Nat :=
  (classesOf samples).map (fun c => (samples.map (fun s => s.2)).count c)

/-- Per-class `(class, train draw count, test draw count)` triples: sklearn's
`n_i = _approximate_mode(class_counts, n_train)` and
`t_i = _approximate_mode(class_counts - n_i, n_test)`, zipped with the
classes. -/
def splitGroups (samples : List Sample) (nTrain nTest : Nat) : List (Nat × Nat × Nat) :=
  (classesOf samples).zip ((approxMode (classCountsOf samples) nTrain).zip
    (approxMode (List.zipWith (fun a b => a - b) (classCountsOf samples)
      (approxMode (classCountsOf samples) nTrain)) nTest))

/-- The train half produced by `StratifiedShuffleSplit._iter_indices`: from
each RNG-permuted class take its first `n_i[k]` members, concatenate, and
RNG-permute the result. -/
def stratTrainList (samples : List Sample) (seed nTrain nTest : Nat) : List Sample :=
  (((splitGroups samples nTrain nTest).map
    (fun g => ((classMembers samples g.1).rotate seed).take g.2.1)).flatten).rotate seed

/-- The test half produced by `StratifiedShuffleSplit._iter_indices`: from
each RNG-permuted class take the `t_i[k]` members after the first `n_i[k]`,
concatenate, and RNG-permute the result. -/
def stratTestList (samples : List Sample) (seed nTrain nTest : Nat) : List Sample :=
  (((splitGroups samples nTrain nTest).map
    (fun g => (((classMembers samples g.1).rotate seed).drop g.2.1).take g.2.2)).flatten).rotate
    seed

/-- The class-structure checks and the draw of
`StratifiedShuffleSplit._iter_indices` once the sizes are validated. -/
def stratSplit (samples : List Sample) (seed nTrain nTest : Nat) :
    Except SplitErr (List Sample × List Sample) :=
  if (classCountsOf samples).any (fun c => c < 2) then .error .classTooSmall
  else if nTrain < (classesOf samples).length then .error .trainTooFew
  else if nTest < (classesOf samples).length then .error .testTooFew
  else .ok (stratTrainList samples seed nTrain nTest, stratTestList samples seed nTrain nTest)

/-- sklearn `train_test_split(paths, labels, test_size, stratify=labels,
random_state)`: validate the sizes, then run the stratified shuffle split.
`entropy` stands for the ambient RNG state that sklearn would draw from when
`random_state` is `None`; a supplied `random_state` overrides it. -/
def trainTestSplit (samples : List Sample) (testSize : Frac) (randomState : Option Nat)
    (entropy : Nat) : Except SplitErr (List Sample × List Sample) :=
  match validateShuffleSplit samples.length testSize with
  | .error e => .error e
  | .ok (nTrain, nTest) => stratSplit samples (randomState.getD entropy) nTrain nTest

/-- Lines 117-133 of `preprocess_images`: the two-stage split.  First split
train against val+test, then (after Python evaluates the unguarded division
`val_size = val_ratio / (val_ratio + test_ratio)`, which raises
`ZeroDivisionError` on a zero denominator) split the held-out part into val
and test with `test_size = 1 - val_size`. -/
def splitStage (samples : List Sample) (rVal rTest : Frac) (entropy : Nat) :
    Except SplitErr (List Sample × List Sample × List Sample) :=
  match trainTestSplit samples (Frac.add rVal rTest) (some 42) entropy with
  | .error e => .error e
  | .ok (trainS, tempS) =>
    if (Frac.add rVal rTest).num = 0 then .error .zeroDiv
    else
      match trainTestSplit tempS
        (Frac.sub Frac.one (Frac.div rVal (Frac.add rVal rTest))) (some 42) entropy with
      | .error e => .error e
      | .ok (valS, testS) => .ok (trainS, valS, testS)

/-- The pure core of `preprocess_images` on an already-loaded sample list:
the ratio-sum assertion, the no-images check, then the two-stage split. -/
def splitSamples (samples : List Sample) (rTrain rVal rTest : Frac) (entropy : Nat) :
    Except SplitErr (List Sample × List Sample × List Sample) :=
  if (Frac.lt (Frac.abs (Frac.sub (Frac.add (Frac.add rTrain rVal) rTest) Frac.one))
      tolerance) = false then .error .assertSum
  else if samples.length = 0 then .error .noImages
  else splitStage samples rVal rTest entropy

/-! ## The image source reader and the full preprocessing operation -/

/-- What the raw data directory contains: whether each class subdirectory
exists and the file names its `*.jpg` and `*.png` globs return. -/
structure RawDir where
  catsExists : Bool
  catsJpg : List String
  catsPng : List String
  dogsExists : Bool
  dogsJpg : List String
  dogsPng : List String

/-- Paths the `cats/` globs contribute (empty when the directory is
missing). -/
def catPathsOf (dataDir : String) (d : RawDir) : List String :=
  (if d.catsExists then d.catsJpg ++ d.catsPng else []).map
    (fun f => dataDir ++ "/cats/" ++ f)

/-- Paths the `dogs/` globs contribute (empty when the directory is
missing). -/
def dogPathsOf (dataDir : String) (d : RawDir) : List String :=
  (if d.dogsExists then d.dogsJpg ++ d.dogsPng else []).map
    (fun f => dataDir ++ "/dogs/" ++ f)

/-- `load_image_paths` (src/data/preprocessing.py lines 40-82): paths of the
`cats/` globs each labelled 0, then paths of the `dogs/` globs each
labelled 1; a missing subdirectory contributes nothing. -/
def load_image_paths (dataDir : String) (d : RawDir) : List String × List Nat :=
  (catPathsOf dataDir d ++ dogPathsOf dataDir d,
   List.replicate (catPathsOf dataDir d).length 0 ++
     List.replicate (dogPathsOf dataDir d).length 1)

/-- Characters after the last `/` of the input (accumulator-reversed). -/
def afterLastSlash : List Char → List Char → List Char
  | [], acc => acc.reverse
  | c :: rest, acc => if c = '/' then afterLastSlash rest [] else afterLastSlash rest (c :: acc)

/-- `Path(p).name`: the component after the last `/`. -/
def baseName (p : String) : String := ⟨afterLastSlash p.data []⟩

/-- Output path of one processed image
(`processed_path / split_name / class_name / filename`, where
`class_name = 'cats' if label == 0 else 'dogs'`). -/
def processedOutputPath (processedDataDir splitName : String) (label : Nat)
    (origPath : String) : String :=
  processedDataDir ++ "/" ++ splitName ++ "/" ++ (if label == 0 then "cats" else "dogs")
    ++ "/" ++ baseName origPath

/-- A filesystem access performed by `preprocess_images`. -/
inductive FsEffect where
  | readDir (path : String)
  | mkdir (path : String)
  | writeImage (path : String)
deriving DecidableEq, Repr

/-- `preprocess_images` (src/data/preprocessing.py lines 85-166) with its
filesystem effects made explicit, in source order: the ratio-sum assertion
(before any filesystem access), reading the raw directory via
`load_image_paths`, the no-images check, the two-stage split, creating the
six output directories, then resizing and writing every image of every
partition and returning the processed paths.  Reading and resizing a raw
image is assumed to succeed (a decode failure would abort the whole
operation, which no claim exercises). -/
def preprocess_images (rawDataDir : String) (rawDir : RawDir) (processedDataDir : String)
    (rTrain rVal rTest : Frac) (entropy : Nat) :
    Except SplitErr (List String × List String × List String) × List FsEffect :=
  if (Frac.lt (Frac.abs (Frac.sub (Frac.add (Frac.add rTrain rVal) rTest) Frac.one))
      tolerance) = false then (.error .assertSum, [])
  else
    let loaded := load_image_paths rawDataDir rawDir
    let effects := [FsEffect.readDir rawDataDir]
    if loaded.1.length = 0 then (.error .noImages, effects)
    else
      match splitStage (loaded.1.zip loaded.2) rVal rTest entropy with
      | .error e => (.error e, effects)
      | .ok (trainS, valS, testS) =>
        let mkdirs := [FsEffect.mkdir (processedDataDir ++ "/train/cats"),
          FsEffect.mkdir (processedDataDir ++ "/train/dogs"),
          FsEffect.mkdir (processedDataDir ++ "/val/cats"),
          FsEffect.mkdir (processedDataDir ++ "/val/dogs"),
          FsEffect.mkdir (processedDataDir ++ "/test/cats"),
          FsEffect.mkdir (processedDataDir ++ "/test/dogs")]
        let out := fun (splitName : String) (part : List Sample) =>
          part.map (fun s => processedOutputPath processedDataDir splitName s.2 s.1)
        let writes := fun (paths : List String) => paths.map FsEffect.writeImage
        let trainP := out "train" trainS
        let valP := out "val" valS
        let testP := out "test" testS
        (.ok (trainP, valP, testP),
         effects ++ mkdirs ++ (writes trainP ++ writes valP ++ writes testP))

/-! ## Label re-derivation in the training loop (src/training/train.py 123-126) -/

/-- Bool test for `sub` occurring as a contiguous substring of `l`
(Python's `sub in p` on strings). -/
def containsSub (sub : List Char) : List Char → Bool
  | [] => sub.isEmpty
  | c :: rest => sub.isPrefixOf (c :: rest) || containsSub sub rest

/-- The training loop's label re-derivation `0 if 'cats' in p else 1`. -/
def deriveLabel (p : String) : Nat := if containsSub "cats".data p.data then 0 else 1

/-! ## The inference service (src/inference/app.py) -/

/-- Uploaded bytes: either decodable to an (abstract) image or corrupt. -/
inductive FileBytes where
  | image (img : Nat)
  | corrupt (junk : Nat)
deriving DecidableEq, Repr

/-- `PIL.Image.open(io.BytesIO(bytes)).convert('RGB')`: succeeds exactly on
decodable bytes. -/
def decodeImage : FileBytes → Option Nat
  | .image i => some i
  | .corrupt _ => none

/-- One multipart upload as the endpoints see it. -/
structure UploadFile where
  filename : String
  contentType : String
  bytes : FileBytes
deriving DecidableEq, Repr

/-- A raised `HTTPException`: status code and detail message. -/
structure HTTPError where
  status : Nat
  detail : String
deriving DecidableEq, Repr

/-- Python `str.startswith`. -/
def pyStartswith (s pre : String) : Bool := pre.data.isPrefixOf s.data

/-- The torch classifier plus softmax, abstracted to the per-class
probabilities `(cat, dog)` it yields on a decoded image. -/
abbrev TorchModel := Nat → Frac × Frac

/-- The service's global state: the model slot filled (or not) at startup. -/
structure ServiceState where
  model : Option TorchModel

/-- `preprocess_image` (app.py lines 105-138): decode the bytes and apply the
(deterministic) evaluation transform, raising a 400 on undecodable bytes.
The resulting tensor is identified with the decoded image. -/
def preprocess_image (b : FileBytes) : Except HTTPError Nat :=
  match decodeImage b with
  | some img => .ok img
  | none => .error ⟨400, "Invalid image format"⟩

/-- Successful prediction payload: predicted class, the two class
probabilities, and the confidence (the probability of the argmax class). -/
structure PredictionOut where
  prediction : String
  probCat : Frac
  probDog : Frac
  confidence : Frac
deriving DecidableEq, Repr

/-- `predict` (app.py lines 141-179): 503 when no model is loaded, otherwise
softmax probabilities, `torch.max` (first maximal index on ties), and the
class name `'cat' if predicted == 0 else 'dog'`. -/
def predict (st : ServiceState) (t : Nat) : Except HTTPError PredictionOut :=
  match st.model with
  | none => .error ⟨503, "Model not loaded"⟩
  | some m =>
    let p := m t
    let predIdx : Nat := if Frac.lt p.1 p.2 then 1 else 0
    .ok { prediction := if predIdx == 0 then "cat" else "dog"
          probCat := p.1
          probDog := p.2
          confidence := if Frac.lt p.1 p.2 then p.2 else p.1 }

/-- `POST /predict` (app.py lines 182-229): reject a non-image content type
with a 400, then preprocess (400 on undecodable bytes), then predict (503
when no model is loaded). -/
def predict_image (st : ServiceState) (file : UploadFile) : Except HTTPError PredictionOut :=
  if (pyStartswith file.contentType "image/") = false then
    .error ⟨400, "File must be an image"⟩
  else
    match preprocess_image file.bytes with
    | .error e => .error e
    | .ok t => predict st t

/-- One entry of the batch response: a prediction or an error record, always
carrying the filename. -/
inductive BatchEntry where
  | success (filename : String) (result : PredictionOut)
  | failure (filename : String) (error : String)
deriving DecidableEq, Repr

/-- Python `str(e)` on an `HTTPException`. -/
def errStr (e : HTTPError) : String := toString e.status ++ ": " ++ e.detail

/-- The per-file body of `predict_batch` (app.py lines 245-258): read,
preprocess and predict, catching every exception into an error entry.  Note
there is no content-type check on the batch path. -/
def batchItem (st : ServiceState) (f : UploadFile) : BatchEntry :=
  match preprocess_image f.bytes with
  | .error e => .failure f.filename (errStr e)
  | .ok t =>
    match predict st t with
    | .error e => .failure f.filename (errStr e)
    | .ok r => .success f.filename r

/-- `POST /predict/batch` (app.py lines 232-260): one entry per input file,
in input order. -/
def predict_batch (st : ServiceState) (files : List UploadFile) : List BatchEntry :=
  files.map (batchItem st)

/-- The batch endpoint never raises: its response is always the 200 payload
`{results: ...}`. -/
def predict_batch_endpoint (st : ServiceState) (files : List UploadFile) :
    Except HTTPError (List BatchEntry) :=
  .ok (predict_batch st files)

/-! ## The training loop's best-checkpoint logic (src/training/train.py 158-198) -/

/-- What one epoch of stochastic training produces: the parameters after the
epoch's gradient updates and the epoch's validation accuracy.  The
optimisation dynamics are abstracted into the sequence of these results. -/
structure EpochResult (P : Type) where
  params : P
  valAcc : Frac

/-- The loop state the claim is about: `best_val_acc` and the persisted
`best_model.pt` checkpoint (none before the first save). -/
structure TrainState (P : Type) where
  best_val_acc : Frac
  checkpoint : Option P
deriving DecidableEq

/-- One epoch's tail (train.py lines 192-198): `if val_acc > best_val_acc:`
update the best and overwrite the checkpoint with the current parameters. -/
def epochStep {P : Type} (r : EpochResult P) (st : TrainState P) : TrainState P :=
  if Frac.lt st.best_val_acc r.valAcc then
    { best_val_acc := r.valAcc, checkpoint := some r.params }
  else st

/-- The loop state after `n` epochs, starting from `best_val_acc = 0.0` and
no checkpoint. -/
def trainLoop {P : Type} (epochs : Nat → EpochResult P) : Nat → TrainState P
  | 0 => { best_val_acc := Frac.zero, checkpoint := none }
  | n + 1 => epochStep (epochs n) (trainLoop epochs n)

/-! ## Semantics of `Frac` comparisons -/

theorem Frac.lt_eq_true_iff (a b : Frac) (ha : 0 < a.den) (hb : 0 < b.den) :
    Frac.lt a b = true ↔ a.toRat < b.toRat := by
  have ha' : (0 : ℚ) < (a.den : ℚ) := by exact_mod_cast ha
  have hb' : (0 : ℚ) < (b.den : ℚ) := by exact_mod_cast hb
  unfold Frac.lt Frac.toRat
  rw [decide_eq_true_eq, div_lt_div_iff ha' hb']
  constructor
  · intro h
    exact_mod_cast h
  · intro h
    exact_mod_cast h

theorem Frac.toRat_add (a b : Frac) (ha : a.den ≠ 0) (hb : b.den ≠ 0) :
    (Frac.add a b).toRat = a.toRat + b.toRat := by
  have ha' : (a.den : ℚ) ≠ 0 := by exact_mod_cast ha
  have hb' : (b.den : ℚ) ≠ 0 := by exact_mod_cast hb
  unfold Frac.add Frac.toRat
  push_cast
  field_simp

theorem Frac.toRat_sub (a b : Frac) (ha : a.den ≠ 0) (hb : b.den ≠ 0) :
    (Frac.sub a b).toRat = a.toRat - b.toRat := by
  have ha' : (a.den : ℚ) ≠ 0 := by exact_mod_cast ha
  have hb' : (b.den : ℚ) ≠ 0 := by exact_mod_cast hb
  unfold Frac.sub Frac.toRat
  push_cast
  field_simp
  ring

theorem Frac.toRat_abs (a : Frac) (ha : 0 < a.den) :
    (Frac.abs a).toRat = |a.toRat| := by
  have ha' : (0 : ℚ) < (a.den : ℚ) := by exact_mod_cast ha
  unfold Frac.abs Frac.toRat
  rw [abs_div, abs_of_pos ha']
  push_cast
  rfl

theorem Frac.toRat_one : Frac.one.toRat = 1 := by norm_num [Frac.toRat, Frac.one]

theorem Frac.toRat_tolerance : tolerance.toRat = 1 / 1000000 := by
  norm_num [Frac.toRat, tolerance]

theorem Frac.den_add (a b : Frac) : (Frac.add a b).den = a.den * b.den := rfl

theorem Frac.den_sub (a b : Frac) : (Frac.sub a b).den = a.den * b.den := rfl

theorem Frac.den_abs (a : Frac) : (Frac.abs a).den = a.den := rfl

/-! ## Basic facts about the split validation -/

theorem validateSizes_ok (n k : Nat) (p : Nat × Nat) (h : validateSizes n k = .ok p) :
    p.1 + p.2 = n ∧ p.1 ≠ 0 := by
  unfold validateSizes at h
  split at h
  · exact absurd h (by simp)
  · split at h
    · exact absurd h (by simp)
    · next h1 h2 =>
      simp only [Except.ok.injEq] at h
      subst h
      exact ⟨by omega, by omega⟩

theorem validateShuffleSplit_ok (n : Nat) (t : Frac) (p : Nat × Nat)
    (h : validateShuffleSplit n t = .ok p) :
    0 < t.num ∧ p.1 + p.2 = n ∧ p.1 ≠ 0 := by
  unfold validateShuffleSplit at h
  split at h
  · exact absurd h (by simp)
  · next hguard =>
    have h1 : ¬(Frac.le t Frac.zero = true) := fun hh => hguard (by simp [hh])
    simp only [Frac.le, Frac.zero, decide_eq_true_eq, mul_one, zero_mul, not_le] at h1
    obtain ⟨hsum, hne⟩ := validateSizes_ok _ _ _ h
    exact ⟨h1, hsum, hne⟩

theorem validateShuffleSplit_ne_zeroDiv (n : Nat) (t : Frac) :
    validateShuffleSplit n t ≠ .error .zeroDiv := by
  unfold validateShuffleSplit validateSizes
  split
  · simp
  · split
    · simp
    · split <;> simp

theorem trainTestSplit_ne_zeroDiv (samples : List Sample) (t : Frac) (r : Option Nat)
    (e : Nat) : trainTestSplit samples t r e ≠ .error .zeroDiv := by
  unfold trainTestSplit
  split
  · next er heq =>
    intro hc
    rw [Except.error.injEq] at hc
    subst hc
    exact validateShuffleSplit_ne_zeroDiv _ _ heq
  · unfold stratSplit
    split
    · simp
    · split
      · simp
      · split <;> simp

theorem trainTestSplit_ok_pos (samples : List Sample) (t : Frac) (r : Option Nat) (e : Nat)
    (p : List Sample × List Sample) (h : trainTestSplit samples t r e = .ok p) :
    0 < t.num := by
  unfold trainTestSplit at h
  split at h
  · exact absurd h (by simp)
  · next q heq => exact (validateShuffleSplit_ok _ _ _ heq).1

/-- C2.  The dataset split is a deterministic function of the sample list and
the ratios: since `preprocess_images` passes the fixed `random_state=42` to
both `train_test_split` calls, its result does not depend on the ambient RNG
entropy, the only run-to-run varying input; two runs on the same input set
and ratios therefore yield identical train/val/test partitions. -/
theorem splitSamples_deterministic (samples : List Sample) (rTrain rVal rTest : Frac)
    (e1 e2 : Nat) :
    splitSamples samples rTrain rVal rTest e1 = splitSamples samples rTrain rVal rTest e2 :=
  rfl

/-- C9 counterexample.  With ratios `(1.0, 0.0, 0.0)` (which pass the
sum-to-1 assertion) on a non-empty sample list, `preprocess_images` does
*not* fail with the `ZeroDivisionError` of the unguarded division: the first
`train_test_split` call rejects `test_size = 0.0` first, with sklearn's
test-size validation `ValueError`. -/
theorem split_one_zero_zero_not_zeroDiv :
    splitSamples [("a.jpg", 0), ("b.jpg", 0)] ⟨1, 1⟩ ⟨0, 1⟩ ⟨0, 1⟩ 0 =
      .error .badTestSize ∧
    SplitErr.badTestSize ≠ SplitErr.zeroDiv :=
  ⟨rfl, by decide⟩

/-- C9 (amended).  The ratio-sum precondition indeed does not make the second
split stage total: ratios `(1.0, 0.0, 0.0)` pass the sum-to-1.0 validation
yet `preprocess_images` fails on every non-empty sample list.  However the
failure is sklearn's `test_size` validation error raised by the *first* split
stage (`test_size = val_ratio + test_ratio = 0.0` is outside `(0, 1)`), not
an arithmetic error: the unguarded division `val_ratio / (val_ratio +
test_ratio)` is never reached with a zero denominator, so no run of the split
ever raises `ZeroDivisionError`. -/
theorem split_zero_valtest_validation_error :
    (∀ (samples : List Sample) (rTrain rVal rTest : Frac) (entropy : Nat),
      splitSamples samples rTrain rVal rTest entropy ≠ .error .zeroDiv) ∧
    (∀ (samples : List Sample) (entropy : Nat), samples ≠ [] →
      splitSamples samples ⟨1, 1⟩ ⟨0, 1⟩ ⟨0, 1⟩ entropy = .error .badTestSize) := by
  constructor
  · intro samples rTrain rVal rTest entropy
    unfold splitSamples
    split
    · simp
    · split
      · simp
      · unfold splitStage
        split
        · next er heq =>
          intro hc
          rw [Except.error.injEq] at hc
          subst hc
          exact trainTestSplit_ne_zeroDiv _ _ _ _ heq
        · next pr heq =>
          split
          · next hnum =>
            have hpos := trainTestSplit_ok_pos _ _ _ _ _ heq
            omega
          · split
            · next er heq2 =>
              intro hc
              rw [Except.error.injEq] at hc
              subst hc
              exact trainTestSplit_ne_zeroDiv _ _ _ _ heq2
            · simp
  · intro samples entropy h
    have hlen : ¬(samples.length = 0) := fun hh => h (List.length_eq_zero.mp hh)
    unfold splitSamples
    rw [if_neg (by decide)]
    rw [if_neg hlen]
    rfl

/-- C1 counterexample.  A non-empty sample list and a ratio triple summing
exactly to 1.0 do not guarantee that partitions are produced at all: on a
single sample with ratios `(0.8, 0.1, 0.1)`, sklearn computes
`n_test = ceil(0.2 * 1) = 1`, leaving an empty train set, and raises its
"train set will be empty" `ValueError`, so no partition exists. -/
theorem splitSamples_single_sample_fails :
    splitSamples [("a.jpg", 0)] ⟨8, 10⟩ ⟨1, 10⟩ ⟨1, 10⟩ 0 = .error .emptyTrain ∧
    ∀ t v u : List Sample,
      splitSamples [("a.jpg", 0)] ⟨8, 10⟩ ⟨1, 10⟩ ⟨1, 10⟩ 0 ≠ .ok (t, v, u) := by
  refine ⟨rfl, ?_⟩
  intro t v u hc
  rw [show splitSamples [("a.jpg", 0)] ⟨8, 10⟩ ⟨1, 10⟩ ⟨1, 10⟩ 0 = .error .emptyTrain
    from rfl] at hc
  exact absurd hc (by simp)

/-! ## The concrete 20-sample run of C8 -/

/-- Ten cat samples in standard layout order. -/
def cats10 : List Sample :=
  [("c0.jpg", 0), ("c1.jpg", 0), ("c2.jpg", 0), ("c3.jpg", 0), ("c4.jpg", 0),
   ("c5.jpg", 0), ("c6.jpg", 0), ("c7.jpg", 0), ("c8.jpg", 0), ("c9.jpg", 0)]

/-- Ten dog samples in standard layout order. -/
def dogs10 : List Sample :=
  [("d0.jpg", 1), ("d1.jpg", 1), ("d2.jpg", 1), ("d3.jpg", 1), ("d4.jpg", 1),
   ("d5.jpg", 1), ("d6.jpg", 1), ("d7.jpg", 1), ("d8.jpg", 1), ("d9.jpg", 1)]

/-- The 20-sample input of the end-to-end scenario. -/
def samples20 : List Sample := cats10 ++ dogs10

/-- The train partition the model computes on `samples20` with ratios
0.8/0.1/0.1. -/
def train16 : List Sample :=
  [("d4.jpg", 1), ("d5.jpg", 1), ("d6.jpg", 1), ("d7.jpg", 1), ("d8.jpg", 1),
   ("d9.jpg", 1), ("c2.jpg", 0), ("c3.jpg", 0), ("c4.jpg", 0), ("c5.jpg", 0),
   ("c6.jpg", 0), ("c7.jpg", 0), ("c8.jpg", 0), ("c9.jpg", 0), ("d2.jpg", 1),
   ("d3.jpg", 1)]

/-- The val partition the model computes on `samples20`. -/
def val2 : List Sample := [("d0.jpg", 1), ("c0.jpg", 0)]

/-- The test partition the model computes on `samples20`. -/
def test2 : List Sample := [("d1.jpg", 1), ("c1.jpg", 0)]

/-- C8.  On 10 cat samples plus 10 dog samples with ratios 0.8/0.1/0.1 the
split produces a 16-sample train partition, a 2-sample val partition and a
2-sample test partition, with class balance preserved exactly: 8 cats and
8 dogs in train, 1 cat and 1 dog in val, and 1 cat and 1 dog in test. -/
theorem split_20_samples :
    splitSamples samples20 ⟨8, 10⟩ ⟨1, 10⟩ ⟨1, 10⟩ 0 = .ok (train16, val2, test2) ∧
    train16.length = 16 ∧ val2.length = 2 ∧ test2.length = 2 ∧
    (train16.filter (fun s => s.2 == 0)).length = 8 ∧
    (train16.filter (fun s => s.2 == 1)).length = 8 ∧
    (val2.filter (fun s => s.2 == 0)).length = 1 ∧
    (val2.filter (fun s => s.2 == 1)).length = 1 ∧
    (test2.filter (fun s => s.2 == 0)).length = 1 ∧
    (test2.filter (fun s => s.2 == 1)).length = 1 :=
  ⟨rfl, rfl, rfl, rfl, by decide, by decide, by decide, by decide, by decide, by decide⟩

/-- C4.  When the three ratios sum to anything outside the 1e-6 tolerance of
1.0, `preprocess_images` fails immediately with the ratio-sum assertion and
performs no filesystem access at all: no directory is read, created or
written (the effect trace is empty). -/
theorem preprocess_invalid_ratios_no_fs
    (rawDataDir processedDataDir : String) (rawDir : RawDir)
    (rTrain rVal rTest : Frac) (entropy : Nat)
    (hT : 0 < rTrain.den) (hV : 0 < rVal.den) (hTe : 0 < rTest.den)
    (h : 1 / 1000000 ≤ |rTrain.toRat + rVal.toRat + rTest.toRat - 1|) :
    preprocess_images rawDataDir rawDir processedDataDir rTrain rVal rTest entropy =
      (.error .assertSum, []) := by
  have hdenS : 0 < (Frac.sub (Frac.add (Frac.add rTrain rVal) rTest) Frac.one).den := by
    simp only [Frac.den_sub, Frac.den_add, Frac.one]
    positivity
  have hdenA : 0 < (Frac.abs (Frac.sub (Frac.add (Frac.add rTrain rVal) rTest) Frac.one)).den := by
    rw [Frac.den_abs]
    exact hdenS
  have hdenT : (0 : Int) < tolerance.den := by norm_num [tolerance]
  have hcond : Frac.lt (Frac.abs (Frac.sub (Frac.add (Frac.add rTrain rVal) rTest) Frac.one))
      tolerance = false := by
    rw [Bool.eq_false_iff]
    intro hlt
    rw [Frac.lt_eq_true_iff _ _ hdenA hdenT, Frac.toRat_abs _ hdenS,
      Frac.toRat_sub _ _ (by simp only [Frac.den_add]; positivity) (by norm_num [Frac.one]),
      Frac.toRat_add _ _ (by simp only [Frac.den_add]; positivity) (by omega),
      Frac.toRat_add _ _ (by omega) (by omega), Frac.toRat_one, Frac.toRat_tolerance] at hlt
    linarith
  unfold preprocess_images
  rw [hcond]
  simp

/-! ## The inference-service claims -/

/-- C5.  Single predict: a non-image content type or undecodable bytes fail
with a 400 client input error; with well-formed input but no loaded model the
request fails with the distinct 503 service-unavailable error; otherwise the
endpoint returns a prediction that is `"cat"` or `"dog"` together with the
two class probabilities and a confidence value. -/
theorem predict_image_cases (st : ServiceState) (file : UploadFile) :
    ((pyStartswith file.contentType "image/") = false ∨ decodeImage file.bytes = none →
      ∃ d, predict_image st file = .error ⟨400, d⟩) ∧
    ((pyStartswith file.contentType "image/") = true → decodeImage file.bytes ≠ none →
      st.model = none → predict_image st file = .error ⟨503, "Model not loaded"⟩) ∧
    (∀ (m : TorchModel) (img : Nat), (pyStartswith file.contentType "image/") = true →
      decodeImage file.bytes = some img → st.model = some m →
      ∃ r, predict_image st file = .ok r ∧ (r.prediction = "cat" ∨ r.prediction = "dog") ∧
        r.probCat = (m img).1 ∧ r.probDog = (m img).2) := by
  refine ⟨?_, ?_, ?_⟩
  · intro h
    by_cases hct : pyStartswith file.contentType "image/" = false
    · exact ⟨"File must be an image", by unfold predict_image; rw [if_pos hct]⟩
    · have hdec : decodeImage file.bytes = none := by
        rcases h with h | h
        · exact absurd h hct
        · exact h
      refine ⟨"Invalid image format", ?_⟩
      unfold predict_image
      rw [if_neg hct]
      unfold preprocess_image
      rw [hdec]
  · intro hct hdec hm
    obtain ⟨img, himg⟩ := Option.ne_none_iff_exists'.mp hdec
    unfold predict_image
    rw [if_neg (by simp [hct])]
    unfold preprocess_image
    rw [himg]
    unfold predict
    rw [hm]
  · intro m img hct himg hm
    unfold predict_image
    rw [if_neg (by simp [hct])]
    unfold preprocess_image
    rw [himg]
    unfold predict
    rw [hm]
    refine ⟨_, rfl, ?_, rfl, rfl⟩
    by_cases hp : Frac.lt (m img).1 (m img).2 = true
    · right
      simp [hp]
    · left
      simp [Bool.eq_false_iff.mpr hp]

/-- Witness for C5 at concrete inputs: an unloaded model with a good image
yields the 503; a bad content type yields a 400; a loaded model yields a
prediction. -/
theorem predict_image_cases_witness :
    predict_image ⟨none⟩ ⟨"x.jpg", "image/jpeg", .image 0⟩ = .error ⟨503, "Model not loaded"⟩ ∧
    (∃ d, predict_image ⟨none⟩ ⟨"x.jpg", "text/plain", .image 0⟩ = .error ⟨400, d⟩) ∧
    (∃ r, predict_image ⟨some (fun _ => (⟨1, 4⟩, ⟨3, 4⟩))⟩ ⟨"x.jpg", "image/jpeg", .image 0⟩
        = .ok r ∧ (r.prediction = "cat" ∨ r.prediction = "dog") ∧
      r.probCat = ⟨1, 4⟩ ∧ r.probDog = ⟨3, 4⟩) :=
  ⟨(predict_image_cases ⟨none⟩ ⟨"x.jpg", "image/jpeg", .image 0⟩).2.1 (by decide)
      (by intro h; exact absurd h (by decide)) rfl,
   (predict_image_cases ⟨none⟩ ⟨"x.jpg", "text/plain", .image 0⟩).1 (Or.inl (by decide)),
   (predict_image_cases ⟨some (fun _ => (⟨1, 4⟩, ⟨3, 4⟩))⟩
      ⟨"x.jpg", "image/jpeg", .image 0⟩).2.2 (fun _ => (⟨1, 4⟩, ⟨3, 4⟩)) 0 (by decide) rfl rfl⟩

/-- C6.  Batch predict with a loaded model returns exactly one entry per
uploaded file, in input order; the entry at index `i` is a function of file
`i` alone (so one bad item cannot affect the other entries or fail the
batch); every file with decodable bytes gets a success entry carrying a
prediction, and every corrupt file gets an error entry carrying the decode
error, both labelled with the file's name. -/
theorem predict_batch_spec (st : ServiceState) (m : TorchModel) (files : List UploadFile)
    (hm : st.model = some m) :
    (predict_batch st files).length = files.length ∧
    (∀ i, i < files.length →
      (predict_batch st files).getD i (.failure "" "") =
        batchItem st (files.getD i ⟨"", "", .corrupt 0⟩)) ∧
    (∀ f : UploadFile,
      (∀ img, decodeImage f.bytes = some img →
        ∃ r, batchItem st f = .success f.filename r) ∧
      (decodeImage f.bytes = none →
        batchItem st f = .failure f.filename (errStr ⟨400, "Invalid image format"⟩))) := by
  refine ⟨List.length_map _ _, ?_, ?_⟩
  · intro i hi
    have hi' : i < (predict_batch st files).length := by
      unfold predict_batch
      rw [List.length_map]
      exact hi
    rw [List.getD_eq_getElem _ _ hi', List.getD_eq_getElem _ _ hi]
    unfold predict_batch
    simp
  · intro f
    constructor
    · intro img himg
      unfold batchItem preprocess_image
      rw [himg]
      unfold predict
      rw [hm]
      exact ⟨_, rfl⟩
    · intro himg
      unfold batchItem preprocess_image
      rw [himg]

/-- Witness for C6: with a loaded model, one good and one corrupt upload
yield a two-entry response whose first entry is a prediction and whose
second entry is the per-item decode error. -/
theorem predict_batch_spec_witness :
    (predict_batch ⟨some (fun _ => (⟨1, 4⟩, ⟨3, 4⟩))⟩
      [⟨"g.jpg", "image/jpeg", .image 5⟩, ⟨"b.jpg", "image/jpeg", .corrupt 0⟩]).length = 2 ∧
    (∃ r, batchItem ⟨some (fun _ => (⟨1, 4⟩, ⟨3, 4⟩))⟩ ⟨"g.jpg", "image/jpeg", .image 5⟩ =
      .success "g.jpg" r) ∧
    batchItem ⟨some (fun _ => (⟨1, 4⟩, ⟨3, 4⟩))⟩ ⟨"b.jpg", "image/jpeg", .corrupt 0⟩ =
      .failure "b.jpg" (errStr ⟨400, "Invalid image format"⟩) :=
  ⟨(predict_batch_spec ⟨some (fun _ => (⟨1, 4⟩, ⟨3, 4⟩))⟩ (fun _ => (⟨1, 4⟩, ⟨3, 4⟩))
      [⟨"g.jpg", "image/jpeg", .image 5⟩, ⟨"b.jpg", "image/jpeg", .corrupt 0⟩] rfl).1,
   ((predict_batch_spec ⟨some (fun _ => (⟨1, 4⟩, ⟨3, 4⟩))⟩ (fun _ => (⟨1, 4⟩, ⟨3, 4⟩))
      [⟨"g.jpg", "image/jpeg", .image 5⟩, ⟨"b.jpg", "image/jpeg", .corrupt 0⟩] rfl).2.2
      ⟨"g.jpg", "image/jpeg", .image 5⟩).1 5 rfl,
   ((predict_batch_spec ⟨some (fun _ => (⟨1, 4⟩, ⟨3, 4⟩))⟩ (fun _ => (⟨1, 4⟩, ⟨3, 4⟩))
      [⟨"g.jpg", "image/jpeg", .image 5⟩, ⟨"b.jpg", "image/jpeg", .corrupt 0⟩] rfl).2.2
      ⟨"b.jpg", "image/jpeg", .corrupt 0⟩).2 rfl⟩

/-- C10 counterexample.  With no model loaded, a batch containing a corrupt
file does not report the model-not-loaded condition on that entry: the decode
error wins, so not every entry of the batch response reports
model-not-loaded. -/
theorem predict_batch_no_model_corrupt :
    predict_batch ⟨none⟩ [⟨"b.jpg", "image/jpeg", .corrupt 0⟩] =
      [.failure "b.jpg" "400: Invalid image format"] ∧
    ("400: Invalid image format" ≠ "503: Model not loaded") ∧
    errStr ⟨503, "Model not loaded"⟩ = "503: Model not loaded" :=
  ⟨rfl, by decide, rfl⟩

/-- C10 (amended).  With no model loaded the batch endpoint still succeeds as
a whole (it returns the 200 payload, never surfacing the 503 as a
whole-request failure, unlike single predict) with one entry per input, and
every entry is an error entry: entries whose bytes decode report the
model-not-loaded condition, while corrupt entries report the decode error
instead. -/
theorem predict_batch_no_model (st : ServiceState) (files : List UploadFile)
    (hm : st.model = none) :
    predict_batch_endpoint st files = .ok (predict_batch st files) ∧
    (predict_batch st files).length = files.length ∧
    (∀ entry ∈ predict_batch st files, ∃ fn err, entry = .failure fn err) ∧
    (∀ f : UploadFile,
      (∀ img, decodeImage f.bytes = some img →
        batchItem st f = .failure f.filename (errStr ⟨503, "Model not loaded"⟩)) ∧
      (decodeImage f.bytes = none →
        batchItem st f = .failure f.filename (errStr ⟨400, "Invalid image format"⟩))) ∧
    (∀ i, i < files.length →
      (predict_batch st files).getD i (.failure "" "") =
        batchItem st (files.getD i ⟨"", "", .corrupt 0⟩)) := by
  have hitem : ∀ f : UploadFile,
      (∀ img, decodeImage f.bytes = some img →
        batchItem st f = .failure f.filename (errStr ⟨503, "Model not loaded"⟩)) ∧
      (decodeImage f.bytes = none →
        batchItem st f = .failure f.filename (errStr ⟨400, "Invalid image format"⟩)) := by
    intro f
    constructor
    · intro img himg
      unfold batchItem preprocess_image
      rw [himg]
      unfold predict
      rw [hm]
    · intro himg
      unfold batchItem preprocess_image
      rw [himg]
  refine ⟨rfl, List.length_map _ _, ?_, hitem, ?_⟩
  · intro entry hentry
    obtain ⟨f, _, hf⟩ := List.mem_map.mp hentry
    cases hb : decodeImage f.bytes with
    | none =>
      refine ⟨f.filename, errStr ⟨400, "Invalid image format"⟩, ?_⟩
      rw [← hf]
      exact (hitem f).2 hb
    | some img =>
      refine ⟨f.filename, errStr ⟨503, "Model not loaded"⟩, ?_⟩
      rw [← hf]
      exact (hitem f).1 img hb
  · intro i hi
    have hi' : i < (predict_batch st files).length := by
      unfold predict_batch
      rw [List.length_map]
      exact hi
    rw [List.getD_eq_getElem _ _ hi', List.getD_eq_getElem _ _ hi]
    unfold predict_batch
    simp

/-- Witness for C10: a decodable upload with no model loaded produces a
normal 200 batch response whose single entry reports the 503 condition. -/
theorem predict_batch_no_model_witness :
    predict_batch_endpoint ⟨none⟩ [⟨"g.jpg", "image/jpeg", .image 5⟩] =
      .ok (predict_batch ⟨none⟩ [⟨"g.jpg", "image/jpeg", .image 5⟩]) ∧
    batchItem ⟨none⟩ ⟨"g.jpg", "image/jpeg", .image 5⟩ =
      .failure "g.jpg" (errStr ⟨503, "Model not loaded"⟩) :=
  ⟨(predict_batch_no_model ⟨none⟩ [⟨"g.jpg", "image/jpeg", .image 5⟩] rfl).1,
   ((predict_batch_no_model ⟨none⟩ [⟨"g.jpg", "image/jpeg", .image 5⟩] rfl).2.2.2.1
      ⟨"g.jpg", "image/jpeg", .image 5⟩).1 5 rfl⟩

/-! ## The training loop's best-checkpoint claim -/

theorem trainLoop_den {P : Type} (epochs : Nat → EpochResult P)
    (h : ∀ j, 0 < ((epochs j).valAcc).den) :
    ∀ n, 0 < ((trainLoop epochs n).best_val_acc).den := by
  intro n
  induction n with
  | zero => norm_num [trainLoop, Frac.zero]
  | succ n ih =>
    show 0 < ((epochStep (epochs n) (trainLoop epochs n)).best_val_acc).den
    unfold epochStep
    split
    · exact h n
    · exact ih

theorem trainLoop_best_ge {P : Type} (epochs : Nat → EpochResult P)
    (h : ∀ j, 0 < ((epochs j).valAcc).den) :
    ∀ n j, j < n →
      ((epochs j).valAcc).toRat ≤ ((trainLoop epochs n).best_val_acc).toRat := by
  intro n
  induction n with
  | zero => omega
  | succ n ih =>
    intro j hj
    have hstep : trainLoop epochs (n + 1) = epochStep (epochs n) (trainLoop epochs n) := rfl
    rw [hstep]
    unfold epochStep
    split
    · next hlt =>
      have hlt' := (Frac.lt_eq_true_iff _ _ (trainLoop_den epochs h n) (h n)).mp hlt
      rcases Nat.lt_succ_iff_lt_or_eq.mp hj with hj' | hj'
      · exact le_of_lt (lt_of_le_of_lt (ih j hj') hlt')
      · subst hj'
        exact le_refl _
    · next hlt =>
      have hlt' : ¬(((trainLoop epochs n).best_val_acc).toRat < ((epochs n).valAcc).toRat) :=
        fun hc => hlt ((Frac.lt_eq_true_iff _ _ (trainLoop_den epochs h n) (h n)).mpr hc)
      rcases Nat.lt_succ_iff_lt_or_eq.mp hj with hj' | hj'
      · exact ih j hj'
      · subst hj'
        exact le_of_not_lt hlt'

/-- C7.  The epoch state machine tracks the best validation accuracy seen so
far (`best_val_acc` dominates every previous epoch's accuracy); whenever an
epoch's validation accuracy strictly exceeds it, the current parameters are
persisted as the checkpoint, overwriting the previous one, and the tracked
best is updated to the new accuracy; when the accuracy does not strictly
improve, the loop state — checkpoint and tracked best alike — is left
completely unchanged. -/
theorem train_best_checkpoint (P : Type) (epochs : Nat → EpochResult P) (k : Nat)
    (hden : ∀ j, 0 < ((epochs j).valAcc).den) :
    (∀ j, j < k →
      ((epochs j).valAcc).toRat ≤ ((trainLoop epochs k).best_val_acc).toRat) ∧
    (((trainLoop epochs k).best_val_acc).toRat < ((epochs k).valAcc).toRat →
      trainLoop epochs (k + 1) =
        { best_val_acc := (epochs k).valAcc, checkpoint := some ((epochs k).params) }) ∧
    (((epochs k).valAcc).toRat ≤ ((trainLoop epochs k).best_val_acc).toRat →
      trainLoop epochs (k + 1) = trainLoop epochs k) := by
  refine ⟨trainLoop_best_ge epochs hden k, ?_, ?_⟩
  · intro himp
    show epochStep (epochs k) (trainLoop epochs k) = _
    unfold epochStep
    rw [if_pos ((Frac.lt_eq_true_iff _ _ (trainLoop_den epochs hden k) (hden k)).mpr himp)]
  · intro hno
    show epochStep (epochs k) (trainLoop epochs k) = _
    unfold epochStep
    rw [if_neg]
    intro hc
    exact absurd ((Frac.lt_eq_true_iff _ _ (trainLoop_den epochs hden k) (hden k)).mp hc)
      (not_lt_of_le hno)

/-- The abstract epoch outcomes used by the C7 witness: accuracy 1/2 at epoch
0, then 1/4 forever. -/
def epochsW : Nat → EpochResult Nat := fun j => if j = 0 then ⟨7, ⟨1, 2⟩⟩ else ⟨9, ⟨1, 4⟩⟩

/-- Witness for C7: epoch 0 improves on the initial 0.0 and persists its
parameters; epoch 1 does not improve and leaves the state unchanged. -/
theorem train_best_checkpoint_witness :
    trainLoop epochsW 1 = { best_val_acc := ⟨1, 2⟩, checkpoint := some 7 } ∧
    trainLoop epochsW 2 = trainLoop epochsW 1 := by
  have hden : ∀ j, 0 < ((epochsW j).valAcc).den := by
    intro j
    unfold epochsW
    split <;> norm_num
  constructor
  · exact (train_best_checkpoint Nat epochsW 0 hden).2.1
      (by norm_num [trainLoop, Frac.zero, Frac.toRat, epochsW])
  · exact (train_best_checkpoint Nat epochsW 1 hden).2.2
      (by norm_num [show trainLoop epochsW 1 = { best_val_acc := ⟨1, 2⟩, checkpoint := some 7 }
        from rfl, Frac.toRat, epochsW])

/-! ## Witnesses for C4 and C9 -/

/-- Witness for C4: ratios summing to 1.1 fail the assertion before any
filesystem access. -/
theorem preprocess_invalid_ratios_no_fs_witness :
    preprocess_images "raw" ⟨true, ["x.jpg"], [], true, ["y.jpg"], []⟩ "proc"
      ⟨8, 10⟩ ⟨2, 10⟩ ⟨1, 10⟩ 0 = (.error .assertSum, []) :=
  preprocess_invalid_ratios_no_fs "raw" "proc" ⟨true, ["x.jpg"], [], true, ["y.jpg"], []⟩
    ⟨8, 10⟩ ⟨2, 10⟩ ⟨1, 10⟩ 0 (by norm_num) (by norm_num) (by norm_num)
    (by norm_num [Frac.toRat, le_abs])

/-- Witness for C9 at concrete inputs: a legal run is not a
`ZeroDivisionError`, and the `(1, 0, 0)` run fails with the test-size
validation error. -/
theorem split_zero_valtest_validation_error_witness :
    splitSamples [("a.jpg", 0), ("b.jpg", 0)] ⟨1, 2⟩ ⟨1, 4⟩ ⟨1, 4⟩ 0 ≠ .error .zeroDiv ∧
    splitSamples [("a.jpg", 0), ("b.jpg", 0)] ⟨1, 1⟩ ⟨0, 1⟩ ⟨0, 1⟩ 3 = .error .badTestSize :=
  ⟨split_zero_valtest_validation_error.1 [("a.jpg", 0), ("b.jpg", 0)] ⟨1, 2⟩ ⟨1, 4⟩ ⟨1, 4⟩ 0,
   split_zero_valtest_validation_error.2 [("a.jpg", 0), ("b.jpg", 0)] 3 (by simp)⟩

/-! ## Substring facts for the label re-derivation claim -/

theorem isPrefixOf_append_self (l r : List Char) : l.isPrefixOf (l ++ r) = true := by
  induction l with
  | nil => simp [List.isPrefixOf]
  | cons x xs ih => simp [List.isPrefixOf, ih]

theorem isPrefixOf_append_cons (sub : List Char) (c : Char) (hc : c ∉ sub) :
    ∀ a b : List Char, sub.isPrefixOf (a ++ c :: b) = true → sub.isPrefixOf a = true := by
  intro a
  induction a generalizing sub with
  | nil =>
    intro b h
    cases sub with
    | nil => simp [List.isPrefixOf]
    | cons s rest =>
      simp only [List.nil_append, List.isPrefixOf, Bool.and_eq_true, beq_iff_eq] at h
      exact absurd (h.1 ▸ List.mem_cons_self s rest) (h.1 ▸ hc)
  | cons x a' ih =>
    intro b h
    cases sub with
    | nil => simp [List.isPrefixOf]
    | cons s rest =>
      simp only [List.cons_append, List.isPrefixOf, Bool.and_eq_true] at h ⊢
      refine ⟨h.1, ?_⟩
      exact ih rest (fun hm => hc (List.mem_cons_of_mem s hm)) b h.2

theorem containsSub_append_cons (sub : List Char) (c : Char) (hc : c ∉ sub) :
    ∀ a b : List Char, containsSub sub (a ++ c :: b) = true →
      containsSub sub a = true ∨ containsSub sub b = true := by
  intro a
  induction a with
  | nil =>
    intro b h
    rw [List.nil_append] at h
    rw [show containsSub sub (c :: b) = (sub.isPrefixOf (c :: b) || containsSub sub b)
      from rfl] at h
    rcases Bool.or_eq_true_iff.mp h with h | h
    · cases sub with
      | nil => exact Or.inl rfl
      | cons s rest =>
        simp only [List.isPrefixOf, Bool.and_eq_true, beq_iff_eq] at h
        exact absurd (h.1 ▸ List.mem_cons_self s rest) (h.1 ▸ hc)
    · exact Or.inr h
  | cons x a' ih =>
    intro b h
    rw [List.cons_append] at h
    rw [show containsSub sub (x :: (a' ++ c :: b)) =
      (sub.isPrefixOf (x :: (a' ++ c :: b)) || containsSub sub (a' ++ c :: b)) from rfl] at h
    rcases Bool.or_eq_true_iff.mp h with h | h
    · have := isPrefixOf_append_cons sub c hc (x :: a') b (by rw [List.cons_append]; exact h)
      left
      rw [show containsSub sub (x :: a') = (sub.isPrefixOf (x :: a') || containsSub sub a')
        from rfl, this]
      rfl
    · rcases ih b h with h' | h'
      · left
        rw [show containsSub sub (x :: a') = (sub.isPrefixOf (x :: a') || containsSub sub a')
          from rfl, h']
        simp
      · exact Or.inr h'

theorem containsSub_append_right (sub a b : List Char) (h : containsSub sub b = true) :
    containsSub sub (a ++ b) = true := by
  induction a with
  | nil => simpa using h
  | cons x a' ih =>
    rw [List.cons_append]
    rw [show containsSub sub (x :: (a' ++ b)) =
      (sub.isPrefixOf (x :: (a' ++ b)) || containsSub sub (a' ++ b)) from rfl, ih]
    simp

theorem containsSub_self_append (sub r : List Char) :
    containsSub sub (sub ++ r) = true := by
  cases sub with
  | nil =>
    cases r with
    | nil => rfl
    | cons y ys =>
      rw [List.nil_append]
      rw [show containsSub [] (y :: ys) = (List.isPrefixOf [] (y :: ys) || containsSub [] ys)
        from rfl]
      simp [List.isPrefixOf]
  | cons s rest =>
    rw [List.cons_append]
    rw [show containsSub (s :: rest) (s :: (rest ++ r)) =
      (List.isPrefixOf (s :: rest) (s :: (rest ++ r)) || containsSub (s :: rest) (rest ++ r))
      from rfl]
    simp [List.isPrefixOf, isPrefixOf_append_self]

theorem strData_append (a b : String) : (a ++ b).data = a.data ++ b.data := rfl

/-- Membership in a list zipped with a constant label. -/
theorem mem_zip_replicate {α : Type} (l : List α) (c : Nat) (x : α × Nat)
    (h : x ∈ l.zip (List.replicate l.length c)) : x.2 = c ∧ x.1 ∈ l := by
  induction l with
  | nil => cases h
  | cons y ys ih =>
    rw [List.length_cons, List.replicate_succ, List.zip_cons_cons] at h
    rcases List.mem_cons.mp h with h | h
    · subst h
      exact ⟨rfl, List.mem_cons_self _ _⟩
    · obtain ⟨h2, h1⟩ := ih h
      exact ⟨h2, List.mem_cons_of_mem _ h1⟩

theorem slashData : "/".data = ['/'] := rfl

/-- C3 counterexample.  A sample from the `dogs/` subdirectory (label 1)
whose file name contains the substring `cats` is written by
`preprocess_images` to `.../train/dogs/cats1.jpg`, and the training loop's
re-derivation `0 if 'cats' in p else 1` then assigns it label 0 — a label
inconsistent with its source directory. -/
theorem deriveLabel_dog_cats_filename :
    processedOutputPath "data/processed" "train" 1 "raw/dogs/cats1.jpg" =
      "data/processed/train/dogs/cats1.jpg" ∧
    deriveLabel "data/processed/train/dogs/cats1.jpg" = 0 ∧
    (0 : Nat) ≠ 1 := by
  refine ⟨by decide, by decide, by decide⟩

/-- C3 (amended).  Labels are consistent with source directories in the
reader, and consistent under the training loop's substring-based
re-derivation as long as `cats` does not occur as a substring of the
processed root or of the file name: (a) every sample `load_image_paths`
produces is labelled 0 exactly when its path lies under `cats/` and 1
exactly when it lies under `dogs/`; (b) a label-0 sample's processed path is
always re-derived to 0; (c) a label-1 sample's processed path is re-derived
to 1 provided the substring `cats` occurs in neither the processed data
directory, nor the split name, nor the file's base name. -/
theorem labels_consistent :
    (∀ (dataDir : String) (d : RawDir) (pr : String × Nat),
      pr ∈ (load_image_paths dataDir d).1.zip (load_image_paths dataDir d).2 →
      (pr.2 = 0 ∧ ∃ f, dataDir ++ "/cats/" ++ f = pr.1) ∨
      (pr.2 = 1 ∧ ∃ f, dataDir ++ "/dogs/" ++ f = pr.1)) ∧
    (∀ dir splitName orig : String,
      deriveLabel (processedOutputPath dir splitName 0 orig) = 0) ∧
    (∀ dir splitName orig : String,
      containsSub "cats".data dir.data = false →
      containsSub "cats".data splitName.data = false →
      containsSub "cats".data (baseName orig).data = false →
      deriveLabel (processedOutputPath dir splitName 1 orig) = 1) := by
  refine ⟨?_, ?_, ?_⟩
  · intro dataDir d pr hpr
    have hz : (load_image_paths dataDir d).1.zip (load_image_paths dataDir d).2 =
        (catPathsOf dataDir d).zip
          (List.replicate (catPathsOf dataDir d).length 0) ++
        (dogPathsOf dataDir d).zip
          (List.replicate (dogPathsOf dataDir d).length 1) := by
      have e1 : (load_image_paths dataDir d).1 =
          catPathsOf dataDir d ++ dogPathsOf dataDir d := rfl
      have e2 : (load_image_paths dataDir d).2 =
          List.replicate (catPathsOf dataDir d).length 0 ++
          List.replicate (dogPathsOf dataDir d).length 1 := rfl
      rw [e1, e2, List.zip_append (by rw [List.length_replicate])]
    rw [hz] at hpr
    rcases List.mem_append.mp hpr with h | h
    · left
      obtain ⟨h2, h1⟩ := mem_zip_replicate _ _ _ h
      refine ⟨h2, ?_⟩
      unfold catPathsOf at h1
      obtain ⟨f, _, hf⟩ := List.mem_map.mp h1
      exact ⟨f, by rw [← hf]⟩
    · right
      obtain ⟨h2, h1⟩ := mem_zip_replicate _ _ _ h
      refine ⟨h2, ?_⟩
      unfold dogPathsOf at h1
      obtain ⟨f, _, hf⟩ := List.mem_map.mp h1
      exact ⟨f, by rw [← hf]⟩
  · intro dir splitName orig
    unfold deriveLabel
    rw [if_pos]
    show containsSub "cats".data (processedOutputPath dir splitName 0 orig).data = true
    unfold processedOutputPath
    simp only [strData_append, List.append_assoc]
    apply containsSub_append_right
    apply containsSub_append_right
    apply containsSub_append_right
    apply containsSub_append_right
    exact containsSub_self_append _ _
  · intro dir splitName orig h1 h2 h3
    unfold deriveLabel
    rw [if_neg]
    intro hc
    have hpath : (processedOutputPath dir splitName 1 orig).data =
        dir.data ++ '/' :: (splitName.data ++ '/' ::
          ("dogs".data ++ '/' :: (baseName orig).data)) := by
      unfold processedOutputPath
      simp only [strData_append, List.append_assoc, slashData, List.singleton_append]
      rfl
    rw [hpath] at hc
    have hslash : ('/' : Char) ∉ "cats".data := by decide
    rcases containsSub_append_cons _ _ hslash _ _ hc with h | h
    · rw [h1] at h
      exact absurd h (by simp)
    rcases containsSub_append_cons _ _ hslash _ _ h with h | h
    · rw [h2] at h
      exact absurd h (by simp)
    rcases containsSub_append_cons _ _ hslash _ _ h with h | h
    · exact absurd h (by decide)
    · rw [h3] at h
      exact absurd h (by simp)

/-- Witness for C3 at concrete inputs: the reader labels a `cats/` file 0;
the re-derivation recovers 0 for a processed cat path and 1 for a processed
dog path without `cats` in directory or file name. -/
theorem labels_consistent_witness :
    (((("raw/cats/x.jpg", 0) : String × Nat).2 = 0 ∧
        ∃ f, "raw" ++ "/cats/" ++ f = (("raw/cats/x.jpg", 0) : String × Nat).1) ∨
      ((("raw/cats/x.jpg", 0) : String × Nat).2 = 1 ∧
        ∃ f, "raw" ++ "/dogs/" ++ f = (("raw/cats/x.jpg", 0) : String × Nat).1)) ∧
    deriveLabel (processedOutputPath "data/processed" "train" 0 "raw/cats/c1.jpg") = 0 ∧
    deriveLabel (processedOutputPath "data/processed" "train" 1 "raw/dogs/d1.jpg") = 1 :=
  ⟨labels_consistent.1 "raw" ⟨true, ["x.jpg"], [], false, [], []⟩ ("raw/cats/x.jpg", 0)
      (by decide),
   labels_consistent.2.1 "data/processed" "train" "raw/cats/c1.jpg",
   labels_consistent.2.2 "data/processed" "train" "raw/dogs/d1.jpg"
      (by decide) (by decide) (by decide)⟩

/-! ## Permutation and counting facts about the helper functions -/

theorem insertDesc_perm (key : Nat → Nat) (i : Nat) (l : List Nat) :
    (insertDesc key i l).Perm (i :: l) := by
  induction l with
  | nil => exact List.Perm.refl _
  | cons j rest ih =>
    unfold insertDesc
    split
    · exact (List.Perm.cons j ih).trans (List.Perm.swap i j rest)
    · exact List.Perm.refl _

theorem sortDesc_perm (key : Nat → Nat) (l : List Nat) : (sortDesc key l).Perm l := by
  induction l with
  | nil => exact List.Perm.refl _
  | cons i rest ih =>
    unfold sortDesc
    exact (insertDesc_perm key i (sortDesc key rest)).trans (List.Perm.cons i ih)

theorem mem_dedup (x : Nat) (l : List Nat) : x ∈ dedup l ↔ x ∈ l := by
  induction l with
  | nil => simp [dedup]
  | cons y rest ih =>
    unfold dedup
    split
    · next hy =>
      simp only [List.mem_cons]
      constructor
      · intro h
        exact Or.inr (ih.mp h)
      · intro h
        rcases h with h | h
        · rw [h]
          exact hy
        · exact ih.mpr h
    · next hy =>
      simp only [List.mem_cons, ih]

theorem nodup_dedup (l : List Nat) : (dedup l).Nodup := by
  induction l with
  | nil => simp [dedup]
  | cons y rest ih =>
    unfold dedup
    split
    · exact ih
    · next hy => exact List.Nodup.cons hy ih

theorem getD_set_self (l : List Nat) (j v : Nat) (h : j < l.length) :
    (l.set j v).getD j 0 = v := by
  induction l generalizing j with
  | nil => simp at h
  | cons x xs ih =>
    cases j with
    | zero => rfl
    | succ j' =>
      rw [List.set_cons_succ, List.getD_cons_succ]
      exact ih j' (by simpa using h)

theorem getD_set_ne (l : List Nat) (j k v : Nat) (h : k ≠ j) :
    (l.set j v).getD k 0 = l.getD k 0 := by
  induction l generalizing j k with
  | nil => simp
  | cons x xs ih =>
    cases j with
    | zero =>
      cases k with
      | zero => exact absurd rfl h
      | succ k' => rfl
    | succ j' =>
      cases k with
      | zero => rfl
      | succ k' =>
        rw [List.set_cons_succ, List.getD_cons_succ, List.getD_cons_succ]
        exact ih j' k' (fun hc => h (by rw [hc]))

theorem sum_set_inc (l : List Nat) (j : Nat) (h : j < l.length) :
    (l.set j (l.getD j 0 + 1)).sum = l.sum + 1 := by
  induction l generalizing j with
  | nil => simp at h
  | cons x xs ih =>
    cases j with
    | zero =>
      simp only [List.getD_cons_zero, List.set_cons_zero, List.sum_cons]
      omega
    | succ j' =>
      rw [List.getD_cons_succ, List.set_cons_succ, List.sum_cons, List.sum_cons,
        ih j' (by simpa using h)]
      omega

theorem length_foldl_set (chosen : List Nat) (acc : List Nat) :
    (chosen.foldl (fun acc i => acc.set i (acc.getD i 0 + 1)) acc).length = acc.length := by
  induction chosen generalizing acc with
  | nil => rfl
  | cons j rest ih =>
    rw [List.foldl_cons, ih, List.length_set]

theorem sum_foldl_set (chosen : List Nat) (acc : List Nat)
    (h : ∀ j ∈ chosen, j < acc.length) :
    (chosen.foldl (fun acc i => acc.set i (acc.getD i 0 + 1)) acc).sum =
      acc.sum + chosen.length := by
  induction chosen generalizing acc with
  | nil => rfl
  | cons j rest ih =>
    rw [List.foldl_cons, ih _ (fun j' hj' => by
      rw [List.length_set]
      exact h j' (List.mem_cons_of_mem _ hj')),
      sum_set_inc _ _ (h j (List.mem_cons_self _ _)), List.length_cons]
    omega

theorem getD_foldl_set (chosen : List Nat) (acc : List Nat) (k : Nat) :
    (chosen.foldl (fun acc i => acc.set i (acc.getD i 0 + 1)) acc).getD k 0 =
      acc.getD k 0 + (if k < acc.length then chosen.count k else 0) := by
  induction chosen generalizing acc with
  | nil => simp
  | cons j rest ih =>
    rw [List.foldl_cons, ih, List.length_set]
    by_cases hk : k < acc.length
    · rw [if_pos hk, if_pos hk]
      by_cases hkj : k = j
      · subst hkj
        rw [getD_set_self _ _ _ hk, List.count_cons_self]
        omega
      · rw [getD_set_ne _ _ _ _ hkj, List.count_cons_of_ne hkj]
    · rw [if_neg hk, if_neg hk]
      have : k ≠ j ∨ ¬ j < acc.length := by
        by_cases hj : j < acc.length
        · exact Or.inl (fun hc => hk (hc ▸ hj))
        · exact Or.inr hj
      rcases this with hne | hj
      · rw [getD_set_ne _ _ _ _ hne]
      · rw [List.set_eq_of_length_le (by omega)]

/-! ## Arithmetic facts about the per-class allocation -/

theorem sum_map_mul_nat (l : List Nat) (d : Nat) :
    (l.map (fun c => c * d)).sum = l.sum * d := by
  induction l with
  | nil => simp
  | cons x xs ih => simp [ih, Nat.add_mul]

theorem div_add_div_le (a b t : Nat) : a / t + b / t ≤ (a + b) / t := by
  rcases Nat.eq_zero_or_pos t with ht | ht
  · subst ht
    simp
  · rw [Nat.le_div_iff_mul_le ht, Nat.add_mul]
    exact Nat.add_le_add (Nat.div_mul_le_self a t) (Nat.div_mul_le_self b t)

theorem sum_map_div_le (l : List Nat) (t : Nat) :
    (l.map (fun a => a / t)).sum ≤ l.sum / t := by
  induction l with
  | nil => simp
  | cons x xs ih =>
    simp only [List.map_cons, List.sum_cons]
    exact le_trans (Nat.add_le_add_left ih _) (div_add_div_le x xs.sum t)

theorem approxFloored_length (counts : List Nat) (d : Nat) :
    (approxFloored counts d).length = counts.length := by
  unfold approxFloored
  exact List.length_map _ _

theorem approxFloored_sum_le (counts : List Nat) (d : Nat) :
    (approxFloored counts d).sum ≤ d := by
  unfold approxFloored
  have h1 : counts.map (fun c => c * d / counts.sum) =
      (counts.map (fun c => c * d)).map (fun a => a / counts.sum) := by
    rw [List.map_map]
    rfl
  rw [h1]
  refine le_trans (sum_map_div_le _ _) ?_
  rw [sum_map_mul_nat]
  rcases Nat.eq_zero_or_pos counts.sum with ht | ht
  · rw [ht]
    simp
  · rw [Nat.mul_div_cancel_left _ ht]

theorem floored_lower_bound (t d : Nat) (ht : 0 < t) (l : List Nat) :
    (l.map (fun c => c * d)).sum ≤ t * (l.map (fun c => c * d / t)).sum + l.length * (t - 1) := by
  induction l with
  | nil => simp
  | cons x xs ih =>
    simp only [List.map_cons, List.sum_cons, List.length_cons]
    have hx : x * d ≤ t * (x * d / t) + (t - 1) := by
      have h1 := Nat.div_add_mod (x * d) t
      have h2 := Nat.mod_lt (x * d) ht
      omega
    have hdist : t * (x * d / t + (xs.map (fun c => c * d / t)).sum) =
        t * (x * d / t) + t * (xs.map (fun c => c * d / t)).sum := Nat.mul_add _ _ _
    rw [hdist]
    have hlen : (xs.length + 1) * (t - 1) = xs.length * (t - 1) + (t - 1) :=
      Nat.succ_mul _ _
    rw [hlen]
    omega

theorem need_le_length (counts : List Nat) (d : Nat) (hne : counts ≠ [])
    (ht : 0 < counts.sum) :
    d - (approxFloored counts d).sum ≤ counts.length := by
  have hlen1 : 1 ≤ counts.length := by
    cases counts with
    | nil => exact absurd rfl hne
    | cons => simp
  have h1 := floored_lower_bound counts.sum d ht counts
  rw [sum_map_mul_nat] at h1
  have h2 : (counts.map (fun c => c * d / counts.sum)).sum = (approxFloored counts d).sum :=
    rfl
  rw [h2] at h1
  by_contra hc
  push_neg at hc
  have h3 : counts.sum * ((approxFloored counts d).sum + counts.length + 1) ≤
      counts.sum * d := Nat.mul_le_mul_left _ (by omega)
  rw [Nat.mul_add, Nat.mul_add, Nat.mul_one] at h3
  have h4 : counts.length * (counts.sum - 1) + counts.length = counts.length * counts.sum := by
    have := Nat.mul_sub counts.length counts.sum 1
    have h5 : counts.length ≤ counts.length * counts.sum := by
      calc counts.length = counts.length * 1 := (Nat.mul_one _).symm
        _ ≤ counts.length * counts.sum := Nat.mul_le_mul_left _ ht
    omega
  have h6 : counts.sum * counts.length = counts.length * counts.sum := Nat.mul_comm _ _
  omega

theorem approxChosen_nodup (counts : List Nat) (d : Nat) :
    (approxChosen counts d).Nodup := by
  unfold approxChosen
  exact List.Nodup.sublist (List.take_sublist _ _)
    (((sortDesc_perm _ _).nodup_iff).mpr (List.nodup_range _))

theorem approxChosen_lt (counts : List Nat) (d : Nat) :
    ∀ j ∈ approxChosen counts d, j < counts.length := by
  intro j hj
  unfold approxChosen at hj
  exact List.mem_range.mp ((sortDesc_perm _ _).mem_iff.mp (List.take_subset _ _ hj))

theorem approxChosen_length (counts : List Nat) (d : Nat)
    (h : d - (approxFloored counts d).sum ≤ counts.length) :
    (approxChosen counts d).length = d - (approxFloored counts d).sum := by
  unfold approxChosen
  rw [List.length_take, (sortDesc_perm _ _).length_eq, List.length_range]
  omega

theorem approxMode_length (counts : List Nat) (d : Nat) :
    (approxMode counts d).length = counts.length := by
  unfold approxMode
  rw [length_foldl_set, approxFloored_length]

theorem approxMode_sum (counts : List Nat) (d : Nat) (hne : counts ≠ [])
    (ht : 0 < counts.sum) (hd : d ≤ counts.sum) :
    (approxMode counts d).sum = d := by
  unfold approxMode
  rw [sum_foldl_set _ _ (fun j hj => by
    rw [approxFloored_length]
    exact approxChosen_lt counts d j hj)]
  rw [approxChosen_length counts d (need_le_length counts d hne ht)]
  have h1 := approxFloored_sum_le counts d
  omega

theorem approxMode_getD_le (counts : List Nat) (d k : Nat) (hd : d < counts.sum)
    (hpos : ∀ c ∈ counts, 0 < c) :
    (approxMode counts d).getD k 0 ≤ counts.getD k 0 := by
  unfold approxMode
  rw [getD_foldl_set, approxFloored_length]
  by_cases hk : k < counts.length
  · rw [if_pos hk]
    have hcount : (approxChosen counts d).count k ≤ 1 :=
      List.nodup_iff_count_le_one.mp (approxChosen_nodup counts d) k
    have hfl : (approxFloored counts d).getD k 0 < counts.getD k 0 := by
      unfold approxFloored
      rw [List.getD_eq_getElem _ _ (by rw [List.length_map]; exact hk), List.getElem_map,
        List.getD_eq_getElem _ _ hk]
      have hck : 0 < counts[k] := hpos _ (List.getElem_mem hk)
      have htot : 0 < counts.sum := lt_of_le_of_lt (Nat.zero_le _) hd
      rw [Nat.div_lt_iff_lt_mul htot]
      exact (mul_lt_mul_left hck).mpr hd
    omega
  · rw [if_neg hk, List.getD_eq_default _ _ (by rw [approxFloored_length]; omega)]
    simp

theorem approxMode_saturated (counts : List Nat) (ht : 0 < counts.sum) :
    approxMode counts counts.sum = counts := by
  have hfl : approxFloored counts counts.sum = counts := by
    unfold approxFloored
    rw [show counts.map (fun c => c * counts.sum / counts.sum) = counts.map id from
      List.map_congr_left (fun c _ => Nat.mul_div_cancel c ht), List.map_id]
  unfold approxMode approxChosen
  rw [hfl, Nat.sub_self, List.take_zero]
  rfl

theorem zipWith_sub_sum (l m : List Nat) (hlen : m.length = l.length)
    (hle : ∀ k, m.getD k 0 ≤ l.getD k 0) :
    (List.zipWith (fun a b => a - b) l m).sum = l.sum - m.sum ∧ m.sum ≤ l.sum := by
  induction l generalizing m with
  | nil =>
    cases m with
    | nil => simp
    | cons y ys => simp at hlen
  | cons x xs ih =>
    cases m with
    | nil => simp at hlen
    | cons y ys =>
      have h0 := hle 0
      simp only [List.getD_cons_zero] at h0
      obtain ⟨ih1, ih2⟩ := ih ys (by simpa using hlen) (fun k => by
        have := hle (k + 1)
        simpa using this)
      simp only [List.zipWith_cons_cons, List.sum_cons]
      constructor
      · rw [ih1]
        omega
      · omega

/-! ## The stratified split partitions its input -/

theorem count_labels_eq (samples : List Sample) (c : Nat) :
    (samples.map (fun s => s.2)).count c = (classMembers samples c).length := by
  unfold classMembers
  rw [List.count_eq_countP, List.countP_map, ← List.countP_eq_length_filter]
  rfl

theorem classesOf_ne_nil (samples : List Sample) (hne : samples ≠ []) :
    classesOf samples ≠ [] := by
  cases samples with
  | nil => exact absurd rfl hne
  | cons x rest =>
    have : x.2 ∈ classesOf (x :: rest) := by
      unfold classesOf
      exact (mem_dedup _ _).mpr (List.mem_map.mpr ⟨x, List.mem_cons_self _ _, rfl⟩)
    exact List.ne_nil_of_mem this

theorem classCountsOf_pos (samples : List Sample) :
    ∀ c ∈ classCountsOf samples, 0 < c := by
  intro c hc
  unfold classCountsOf at hc
  obtain ⟨cl, hcl, hceq⟩ := List.mem_map.mp hc
  rw [← hceq]
  exact List.count_pos_iff.mpr ((mem_dedup _ _).mp hcl)

theorem append_append_perm {α : Type} (a b c d : List α) :
    ((a ++ b) ++ (c ++ d)).Perm ((a ++ c) ++ (b ++ d)) := by
  rw [List.append_assoc, List.append_assoc]
  apply List.Perm.append_left
  rw [← List.append_assoc, ← List.append_assoc]
  exact List.Perm.append_right d List.perm_append_comm

theorem parts_flatten_perm (seed : Nat) :
    ∀ (gs : List (Nat × Nat × Nat)) (s : List Sample),
    (gs.map (fun g => g.1)).Nodup →
    (∀ x ∈ s, x.2 ∈ gs.map (fun g => g.1)) →
    (∀ g ∈ gs, g.2.1 + g.2.2 = (classMembers s g.1).length) →
    ((gs.map (fun g => ((classMembers s g.1).rotate seed).take g.2.1)).flatten ++
      (gs.map (fun g =>
        (((classMembers s g.1).rotate seed).drop g.2.1).take g.2.2)).flatten).Perm s := by
  intro gs
  induction gs with
  | nil =>
    intro s _ hmem _
    cases s with
    | nil => exact List.Perm.refl _
    | cons x rest => exact absurd (hmem x (List.mem_cons_self _ _)) (List.not_mem_nil _)
  | cons g gs ih =>
    intro s hnodup hmem hcount
    rw [List.map_cons] at hnodup
    have hnd := List.nodup_cons.mp hnodup
    have hg1 : g.1 ∉ gs.map (fun g' => g'.1) := hnd.1
    have hfst : ∀ g' ∈ gs, g.1 ≠ g'.1 := by
      intro g' hg' hc
      exact hg1 (hc ▸ List.mem_map.mpr ⟨g', hg', rfl⟩)
    have hF2 : ∀ g' ∈ gs,
        classMembers s g'.1 = classMembers (s.filter (fun x => !(x.2 == g.1))) g'.1 := by
      intro g' hg'
      unfold classMembers
      rw [List.filter_filter]
      apply (List.filter_congr ?_).symm
      intro x _
      have hne : ¬g'.1 = g.1 := fun hc => hfst g' hg' hc.symm
      by_cases hx : x.2 = g'.1
      · simp [hx, hne]
      · simp [hx]
    have hmem' : ∀ x ∈ s.filter (fun x => !(x.2 == g.1)), x.2 ∈ gs.map (fun g' => g'.1) := by
      intro x hx
      obtain ⟨hxs, hxne⟩ := List.mem_filter.mp hx
      have := hmem x hxs
      simp only [List.map_cons, List.mem_cons] at this
      rcases this with h | h
      · rw [h] at hxne
        simp at hxne
      · exact h
    have hcount' : ∀ g' ∈ gs,
        g'.2.1 + g'.2.2 = (classMembers (s.filter (fun x => !(x.2 == g.1))) g'.1).length := by
      intro g' hg'
      rw [← hF2 g' hg']
      exact hcount g' (List.mem_cons_of_mem _ hg')
    have hIH := ih (s.filter (fun x => !(x.2 == g.1))) hnd.2 hmem' hcount'
    have hmapT : gs.map (fun g' => ((classMembers s g'.1).rotate seed).take g'.2.1) =
        gs.map (fun g' =>
          ((classMembers (s.filter (fun x => !(x.2 == g.1))) g'.1).rotate seed).take g'.2.1) :=
      List.map_congr_left (fun g' hg' => by rw [hF2 g' hg'])
    have hmapU : gs.map (fun g' =>
          (((classMembers s g'.1).rotate seed).drop g'.2.1).take g'.2.2) =
        gs.map (fun g' =>
          (((classMembers (s.filter (fun x => !(x.2 == g.1))) g'.1).rotate
            seed).drop g'.2.1).take g'.2.2) :=
      List.map_congr_left (fun g' hg' => by rw [hF2 g' hg'])
    have hhead : ((classMembers s g.1).rotate seed).take g.2.1 ++
        (((classMembers s g.1).rotate seed).drop g.2.1).take g.2.2 =
        (classMembers s g.1).rotate seed := by
      rw [← List.take_add]
      apply List.take_of_length_le
      rw [List.length_rotate, ← hcount g (List.mem_cons_self _ _)]
    simp only [List.map_cons, List.flatten_cons]
    refine ((append_append_perm _ _ _ _).trans ?_)
    have hp1 : (((classMembers s g.1).rotate seed).take g.2.1 ++
        (((classMembers s g.1).rotate seed).drop g.2.1).take g.2.2).Perm
        (classMembers s g.1) := by
      rw [hhead]
      exact List.rotate_perm _ _
    have hp2 := (hmapT ▸ hmapU ▸ hIH :
      ((gs.map (fun g' => ((classMembers s g'.1).rotate seed).take g'.2.1)).flatten ++
        (gs.map (fun g' =>
          (((classMembers s g'.1).rotate seed).drop g'.2.1).take g'.2.2)).flatten).Perm
        (s.filter (fun x => !(x.2 == g.1))))
    refine (hp1.append hp2).trans ?_
    exact List.filter_append_perm _ s

theorem classMembers_disjoint_filter (s : List Sample) (c cl : Nat) (hne : cl ≠ c) :
    classMembers s cl = classMembers (s.filter (fun x => !(x.2 == c))) cl := by
  unfold classMembers
  rw [List.filter_filter]
  apply (List.filter_congr ?_).symm
  intro x _
  by_cases hx : x.2 = cl
  · simp [hx, hne]
  · simp [hx]

theorem classes_length_sum (cs : List Nat) (s : List Sample) (hnodup : cs.Nodup)
    (hmem : ∀ x ∈ s, x.2 ∈ cs) :
    (cs.map (fun c => (classMembers s c).length)).sum = s.length := by
  induction cs generalizing s with
  | nil =>
    cases s with
    | nil => rfl
    | cons x r => exact absurd (hmem x (List.mem_cons_self _ _)) (List.not_mem_nil _)
  | cons c cs ih =>
    have hnd := List.nodup_cons.mp hnodup
    have hmem' : ∀ x ∈ s.filter (fun x => !(x.2 == c)), x.2 ∈ cs := by
      intro x hx
      obtain ⟨hxs, hxne⟩ := List.mem_filter.mp hx
      rcases List.mem_cons.mp (hmem x hxs) with h | h
      · rw [h] at hxne
        simp at hxne
      · exact h
    have hmap : cs.map (fun cl => (classMembers s cl).length) =
        cs.map (fun cl => (classMembers (s.filter (fun x => !(x.2 == c))) cl).length) :=
      List.map_congr_left (fun cl hcl => by
        rw [classMembers_disjoint_filter s c cl (fun hcc => hnd.1 (hcc ▸ hcl))])
    simp only [List.map_cons, List.sum_cons]
    rw [hmap, ih _ hnd.2 hmem']
    have hlen := (List.filter_append_perm (fun x => x.2 == c) s).length_eq
    rw [List.length_append] at hlen
    unfold classMembers
    omega

theorem classesOf_nodup (samples : List Sample) : (classesOf samples).Nodup := by
  unfold classesOf
  exact nodup_dedup _

theorem mem_classesOf (samples : List Sample) : ∀ x ∈ samples, x.2 ∈ classesOf samples := by
  intro x hx
  unfold classesOf
  exact (mem_dedup _ _).mpr (List.mem_map.mpr ⟨x, hx, rfl⟩)

theorem classCountsOf_eq_map (samples : List Sample) :
    classCountsOf samples = (classesOf samples).map (fun c => (classMembers samples c).length) := by
  unfold classCountsOf
  exact List.map_congr_left (fun c _ => count_labels_eq samples c)

theorem classCountsOf_sum (samples : List Sample) :
    (classCountsOf samples).sum = samples.length := by
  rw [classCountsOf_eq_map]
  exact classes_length_sum _ _ (classesOf_nodup samples) (mem_classesOf samples)

theorem stratSplit_perm (samples : List Sample) (seed nTrain nTest : Nat)
    (tr te : List Sample) (hsum : nTrain + nTest = samples.length) (hTr : nTrain ≠ 0)
    (h : stratSplit samples seed nTrain nTest = .ok (tr, te)) :
    (tr ++ te).Perm samples := by
  unfold stratSplit at h
  split at h
  · exact absurd h (by simp)
  split at h
  · exact absurd h (by simp)
  split at h
  · exact absurd h (by simp)
  next hTrF hTeF =>
  simp only [Except.ok.injEq, Prod.mk.injEq] at h
  obtain ⟨htr, hte⟩ := h
  subst htr
  subst hte
  have hne : samples ≠ [] := by
    intro hc
    subst hc
    simp only [List.length_nil] at hsum
    omega
  have hclpos : 0 < (classesOf samples).length :=
    List.length_pos.mpr (classesOf_ne_nil _ hne)
  have hcountslen : (classCountsOf samples).length = (classesOf samples).length := by
    unfold classCountsOf
    exact List.length_map _ _
  have hsumc : (classCountsOf samples).sum = samples.length := classCountsOf_sum samples
  have hcne : classCountsOf samples ≠ [] := by
    intro hc
    rw [hc] at hcountslen
    simp only [List.length_nil] at hcountslen
    omega
  have hTest1 : 1 ≤ nTest := by omega
  have htot : 0 < (classCountsOf samples).sum := by
    rw [hsumc]
    omega
  have hTrLe : nTrain ≤ (classCountsOf samples).sum := by
    rw [hsumc]
    omega
  have hTrLt : nTrain < (classCountsOf samples).sum := by
    rw [hsumc]
    omega
  have hpos := classCountsOf_pos samples
  have hnIsum : (approxMode (classCountsOf samples) nTrain).sum = nTrain :=
    approxMode_sum _ _ hcne htot hTrLe
  have hnIlen : (approxMode (classCountsOf samples) nTrain).length =
      (classCountsOf samples).length := approxMode_length _ _
  have hnIle : ∀ k, (approxMode (classCountsOf samples) nTrain).getD k 0 ≤
      (classCountsOf samples).getD k 0 :=
    fun k => approxMode_getD_le _ _ k hTrLt hpos
  obtain ⟨hremsum, _⟩ := zipWith_sub_sum (classCountsOf samples)
    (approxMode (classCountsOf samples) nTrain) hnIlen hnIle
  have hremlen : (List.zipWith (fun a b => a - b) (classCountsOf samples)
      (approxMode (classCountsOf samples) nTrain)).length =
      (classCountsOf samples).length := by
    rw [List.length_zipWith, hnIlen]
    omega
  have hremsum' : (List.zipWith (fun a b => a - b) (classCountsOf samples)
      (approxMode (classCountsOf samples) nTrain)).sum = nTest := by
    rw [hremsum, hsumc, hnIsum]
    omega
  have htIeq : approxMode (List.zipWith (fun a b => a - b) (classCountsOf samples)
      (approxMode (classCountsOf samples) nTrain)) nTest =
      List.zipWith (fun a b => a - b) (classCountsOf samples)
        (approxMode (classCountsOf samples) nTrain) := by
    have h0 : 0 < (List.zipWith (fun a b => a - b) (classCountsOf samples)
        (approxMode (classCountsOf samples) nTrain)).sum := by
      rw [hremsum']
      omega
    rw [show nTest = (List.zipWith (fun a b => a - b) (classCountsOf samples)
      (approxMode (classCountsOf samples) nTrain)).sum from hremsum'.symm]
    exact approxMode_saturated _ h0
  have hmapfst : (splitGroups samples nTrain nTest).map (fun g => g.1) = classesOf samples := by
    unfold splitGroups
    apply List.map_fst_zip
    rw [List.length_zip, htIeq, approxMode_length, hremlen, hcountslen]
    omega
  have hgcount : ∀ g ∈ splitGroups samples nTrain nTest,
      g.2.1 + g.2.2 = (classMembers samples g.1).length := by
    intro g hg
    unfold splitGroups at hg
    obtain ⟨k, hk, hgk⟩ := List.mem_iff_getElem.mp hg
    have hk1 : k < (classesOf samples).length := by
      rw [List.length_zip] at hk
      omega
    have hk2 : k < (approxMode (classCountsOf samples) nTrain).length := by
      rw [hnIlen, hcountslen]
      exact hk1
    have hk3 : k < (approxMode (List.zipWith (fun a b => a - b) (classCountsOf samples)
        (approxMode (classCountsOf samples) nTrain)) nTest).length := by
      rw [htIeq, hremlen, hcountslen]
      exact hk1
    have hk4 : k < (classCountsOf samples).length := by
      rw [hcountslen]
      exact hk1
    rw [List.getElem_zip, List.getElem_zip] at hgk
    rw [← hgk]
    have hrem_k : (approxMode (List.zipWith (fun a b => a - b) (classCountsOf samples)
        (approxMode (classCountsOf samples) nTrain)) nTest)[k] =
        (classCountsOf samples)[k] -
          (approxMode (classCountsOf samples) nTrain)[k] := by
      simp only [htIeq]
      rw [List.getElem_zipWith]
    have hle_k : (approxMode (classCountsOf samples) nTrain)[k] ≤
        (classCountsOf samples)[k] := by
      have := hnIle k
      rw [List.getD_eq_getElem _ _ hk2, List.getD_eq_getElem _ _ hk4] at this
      exact this
    have hk5 : k < ((classesOf samples).map
        (fun c => (classMembers samples c).length)).length := by
      rw [List.length_map]
      exact hk1
    have hcount_k : (classCountsOf samples)[k] =
        (classMembers samples ((classesOf samples)[k])).length := by
      have h1 : (classCountsOf samples)[k] =
          ((classesOf samples).map (fun c => (classMembers samples c).length))[k] := by
        congr 1
        exact classCountsOf_eq_map samples
      rw [h1, List.getElem_map]
    simp only
    rw [hrem_k, hcount_k]
    omega
  unfold stratTrainList stratTestList
  refine ((List.rotate_perm _ _).append (List.rotate_perm _ _)).trans ?_
  exact parts_flatten_perm seed _ samples (by rw [hmapfst]; exact classesOf_nodup samples)
    (by rw [hmapfst]; exact mem_classesOf samples) hgcount

theorem trainTestSplit_perm (samples : List Sample) (t : Frac) (r : Option Nat) (e : Nat)
    (tr te : List Sample) (h : trainTestSplit samples t r e = .ok (tr, te)) :
    (tr ++ te).Perm samples := by
  unfold trainTestSplit at h
  split at h
  · exact absurd h (by simp)
  · next p heq =>
    obtain ⟨_, hsum, hne0⟩ := validateShuffleSplit_ok _ _ _ heq
    exact stratSplit_perm _ _ _ _ _ _ hsum hne0 h

/-- C1 (amended).  Whenever the two-stage split of `preprocess_images`
succeeds (both sklearn stages accept the requested sizes — which a non-empty
input and a ratio triple summing to 1.0 alone do not guarantee), the three
partitions it returns form a genuine partition of the input: their
concatenation is a permutation of the input sample list, so the partition
sizes sum exactly to the input sample count, every sample occurs in the
partitions exactly as often as in the input, a sample belongs to some
partition iff it is an input sample, and for a duplicate-free input the
three partitions are pairwise disjoint. -/
theorem splitSamples_partition (samples : List Sample) (rTrain rVal rTest : Frac)
    (entropy : Nat) (t v u : List Sample)
    (h : splitSamples samples rTrain rVal rTest entropy = .ok (t, v, u)) :
    (t ++ v ++ u).Perm samples ∧
    t.length + v.length + u.length = samples.length ∧
    (∀ x : Sample, t.count x + v.count x + u.count x = samples.count x) ∧
    (∀ x : Sample, (x ∈ t ∨ x ∈ v ∨ x ∈ u) ↔ x ∈ samples) ∧
    (samples.Nodup → t.Disjoint v ∧ t.Disjoint u ∧ v.Disjoint u) := by
  have hperm : (t ++ v ++ u).Perm samples := by
    unfold splitSamples at h
    split at h
    · exact absurd h (by simp)
    split at h
    · exact absurd h (by simp)
    unfold splitStage at h
    split at h
    · exact absurd h (by simp)
    next trS tmpS heq1 =>
    split at h
    · exact absurd h (by simp)
    split at h
    · exact absurd h (by simp)
    next valS testS heq2 =>
    simp only [Except.ok.injEq, Prod.mk.injEq] at h
    obtain ⟨ht, hv, hu⟩ := h
    subst ht
    subst hv
    subst hu
    have h1 := trainTestSplit_perm _ _ _ _ _ _ heq1
    have h2 := trainTestSplit_perm _ _ _ _ _ _ heq2
    rw [List.append_assoc]
    exact (h2.append_left trS).trans h1
  refine ⟨hperm, ?_, ?_, ?_, ?_⟩
  · have := hperm.length_eq
    rw [List.length_append, List.length_append] at this
    omega
  · intro x
    rw [List.count_eq_countP, List.count_eq_countP, List.count_eq_countP,
      List.count_eq_countP]
    have h2 := hperm.countP_eq (fun y => y == x)
    rw [List.countP_append, List.countP_append] at h2
    omega
  · intro x
    have := hperm.mem_iff (a := x)
    rw [List.mem_append, List.mem_append] at this
    tauto
  · intro hnodup
    have hnd : (t ++ v ++ u).Nodup := hperm.nodup_iff.mpr hnodup
    rw [List.append_assoc] at hnd
    obtain ⟨hndt, hndvu, hdisj⟩ := List.nodup_append.mp hnd
    obtain ⟨hndv, hndu, hdisj2⟩ := List.nodup_append.mp hndvu
    refine ⟨?_, ?_, hdisj2⟩
    · exact fun a hat hav => hdisj hat (List.mem_append_left _ hav)
    · exact fun a hat hau => hdisj hat (List.mem_append_right _ hau)

/-- The 8-sample input of the C1 witness. -/
def samples8 : List Sample :=
  [("c0.jpg", 0), ("c1.jpg", 0), ("c2.jpg", 0), ("c3.jpg", 0),
   ("d0.jpg", 1), ("d1.jpg", 1), ("d2.jpg", 1), ("d3.jpg", 1)]

/-- Witness for C1: a successful concrete run (8 samples, ratios
0.5/0.25/0.25) whose partitions permute the input, with sizes 4/2/2. -/
theorem splitSamples_partition_witness :
    (([("d2.jpg", 1), ("d3.jpg", 1), ("c2.jpg", 0), ("c3.jpg", 0)] ++
      [("d0.jpg", 1), ("c0.jpg", 0)] ++ [("d1.jpg", 1), ("c1.jpg", 0)]
        : List Sample).Perm samples8) ∧
    ([("d2.jpg", 1), ("d3.jpg", 1), ("c2.jpg", 0), ("c3.jpg", 0)] : List Sample).length +
      ([("d0.jpg", 1), ("c0.jpg", 0)] : List Sample).length +
      ([("d1.jpg", 1), ("c1.jpg", 0)] : List Sample).length = samples8.length := by
  have h := splitSamples_partition samples8 ⟨1, 2⟩ ⟨1, 4⟩ ⟨1, 4⟩ 0
    [("d2.jpg", 1), ("d3.jpg", 1), ("c2.jpg", 0), ("c3.jpg", 0)]
    [("d0.jpg", 1), ("c0.jpg", 0)] [("d1.jpg", 1), ("c1.jpg", 0)] rfl
  exact ⟨h.1, h.2.1⟩

end CatsDogs
